import Mathlib

/-!
Shallow embedding of the header-normalization / data-cleaning pipeline of
`src/app.py` (Streamlit dashboard for the "Estructura Orgánica – Tren Maya"
spreadsheet), together with proofs about the claims on that pipeline.

Conventions of the embedding:
* pandas column labels and cell texts are Lean `String`s; a cell that may be
  null (`NaN`) is an `Option String` (`none` = missing value);
* `df.columns` is a `List String`; a data frame row is a record of the eight
  canonical fields (`RowG`), a data frame is a `List` of rows;
* pandas/Python string primitives (`str.replace`, `str.strip`, `str.lower`,
  `str.upper`, `astype(str)`, `pd.to_numeric(errors="coerce")`) are modelled
  character-exactly on `List Char` below, restricted to the character set the
  application actually handles (ASCII plus the accented Spanish letters that
  occur in the alias table).
-/

/-- The characters Python's `str.strip()` removes: space, tab, newline,
carriage return, vertical tab, form feed. -/
def isPySpace (c : Char) : Bool :=
  c = ' ' || c = '\t' || c = '\n' || c = '\r' || c.toNat = 11 || c.toNat = 12

/-- Python `str.lower` restricted to ASCII letters and the accented Spanish
capitals used by the alias table. -/
def pyLowerChar (c : Char) : Char :=
  if 'A' ≤ c && c ≤ 'Z' then Char.ofNat (c.toNat + 32)
  else if c = 'Á' then 'á' else if c = 'É' then 'é'
  else if c = 'Í' then 'í' else if c = 'Ó' then 'ó'
  else if c = 'Ú' then 'ú' else if c = 'Ñ' then 'ñ'
  else if c = 'Ü' then 'ü' else c

/-- Python `str.upper` restricted to ASCII letters and the accented Spanish
lowercase letters used by the data. -/
def pyUpperChar (c : Char) : Char :=
  if 'a' ≤ c && c ≤ 'z' then Char.ofNat (c.toNat - 32)
  else if c = 'á' then 'Á' else if c = 'é' then 'É'
  else if c = 'í' then 'Í' else if c = 'ó' then 'Ó'
  else if c = 'ú' then 'Ú' else if c = 'ñ' then 'Ñ'
  else if c = 'ü' then 'Ü' else c

/-- `s.replace(a, b)` for single characters `a`, `b` (`str.replace` with
one-character needle replaces every occurrence). -/
def replaceCh (a b : Char) (l : List Char) : List Char :=
  l.map (fun c => if c = a then b else c)

/-- One pass of Python's `s.replace("  ", " ")`: scan left to right, on each
(non-overlapping) occurrence of two spaces emit one space and continue after
the match. -/
def replaceDD : List Char → List Char
  | [] => []
  | [c] => [c]
  | a :: b :: t =>
    if a = ' ' ∧ b = ' ' then ' ' :: replaceDD t
    else a :: replaceDD (b :: t)

/-- Python's `"  " in s`: does the character list contain two consecutive
spaces? -/
def hasDD : List Char → Bool
  | a :: b :: t => (a = ' ' && b = ' ') || hasDD (b :: t)
  | _ => false

/-- Does the character list contain three consecutive spaces? -/
def has3 : List Char → Bool
  | a :: b :: c :: t => (a = ' ' && b = ' ' && c = ' ') || has3 (b :: c :: t)
  | _ => false

/-- Fuelled version of the loop `while "  " in s: s = s.replace("  ", " ")`
from `apply_aliases.norm` (src/app.py lines 67-68).  Each iteration that
fires strictly shortens the string, so `l.length` fuel always reaches the
fixed point (`collapseFuel_noDD` below); the fuelled form is therefore
extensionally the `while` loop. -/
def collapseFuel : Nat → List Char → List Char
  | 0, l => l
  | n + 1, l => if hasDD l then collapseFuel n (replaceDD l) else l

/-- `while "  " in s: s = s.replace("  ", " ")` — the fully-collapsing loop. -/
def collapseWhile (l : List Char) : List Char :=
  collapseFuel l.length l

/-- Python `str.strip()` on a character list: drop leading and trailing
whitespace characters. -/
def pyStripList (l : List Char) : List Char :=
  (((l.dropWhile isPySpace).reverse).dropWhile isPySpace).reverse

/-- Python `str.strip()` on a `String`. -/
def pyStrip (s : String) : String :=
  String.mk (pyStripList s.data)

/-- Python `str.lower()` on a `String` (restricted alphabet, see
`pyLowerChar`). -/
def pyLower (s : String) : String :=
  String.mk (s.data.map pyLowerChar)

/-- Python `str.upper()` on a `String` (restricted alphabet, see
`pyUpperChar`). -/
def pyUpper (s : String) : String :=
  String.mk (s.data.map pyUpperChar)

/-- Trailing-whitespace strip: helper for reasoning about `pyStripList`. -/
def dropTrail (p : α → Bool) (l : List α) : List α :=
  (l.reverse.dropWhile p).reverse

/-- The three character replacements of `normalize_columns` (and the
corresponding three in `apply_aliases.norm`), in source order:
`.replace("\n", " ").replace("\r", " ").replace("\t", " ")`. -/
def mapWS (l : List Char) : List Char :=
  replaceCh '\t' ' ' (replaceCh '\r' ' ' (replaceCh '\n' ' ' l))

/-- `normalize_columns` acting on one label:
`str(c).replace("\n"," ").replace("\r"," ").replace("\t"," ").replace("  "," ").strip()`.
Note the double-space replacement is a SINGLE non-overlapping pass
(`.str.replace("  ", " ", regex=False)`), not a loop. -/
def normalizeLabel (s : String) : String :=
  String.mk (pyStripList (replaceDD (mapWS s.data)))

/-- `normalize_columns`: normalize every column label, preserving order and
count. -/
def normalize_columns (cols : List String) : List String :=
  cols.map normalizeLabel

/-- The search-key normalization `norm` defined inside `apply_aliases`
(src/app.py lines 64-69): `str(s).strip().lower()`, then replace
newline/CR/tab by spaces, then `while "  " in s: s = s.replace("  ", " ")`. -/
def norm (s : String) : String :=
  String.mk (collapseWhile (mapWS ((pyStripList s.data).map pyLowerChar)))

/-- The static alias table of `apply_aliases` (src/app.py lines 73-90), in
source order. -/
def aliases : List (String × List String) :=
  [("Unidad", ["unidad"]),
   ("Coordinación", ["coordinación", "coordinacion"]),
   ("Dirección", ["dirección", "direccion"]),
   ("Tipo de Puesto", ["tipo de puesto", "tipo puesto", "tipo_puesto"]),
   ("Nivel Salarial", ["nivel salarial", "nivel_salarial"]),
   ("Tipo de Plaza", ["tipo de plaza", "tipo plaza", "tipo_plaza"]),
   ("Justificación", ["justificación", "justificacion"]),
   ("Plazas",
    ["plazas", "no. plazas", "número de plazas", "numero de plazas",
     "num plazas"]),
   ("PLAZAS OCUPADAS/VACANTES",
    ["plazas ocupadas/vacantes", "plazas ocupadas vacantes",
     "ocupadas/vacantes", "plazas ocupadas", "vacantes"])]

/-- Lookup in `col_norm_map = {norm(c): c for c in df.columns}`
(src/app.py line 71).  A Python dict comprehension lets LATER entries
overwrite earlier ones, so the lookup returns the last column whose
normalized form is the key. -/
def lookupLast (k : String) (cols : List String) : Option String :=
  cols.reverse.find? (fun c => norm c == k)

/-- The inner loop of `apply_aliases` (src/app.py lines 95-100): try the
alias variants in order, return the first original header found in
`col_norm_map`. -/
def findAliasOriginal (cols : List String) : List String → Option String
  | [] => none
  | opt :: opts =>
    match lookupLast (norm opt) cols with
    | some orig => some orig
    | none => findAliasOriginal cols opts

/-- `rename_map` (src/app.py lines 92-102): for each canonical field, if a
variant matched, record `found_original ↦ canonical`.  (The source's extra
`found_original in df.columns` check is always true, because
`found_original` is a value of `col_norm_map`, whose values are columns.) -/
def rename_map (cols : List String) : List (String × String) :=
  aliases.filterMap
    (fun p => (findAliasOriginal cols p.2).map (fun orig => (orig, p.1)))

/-- `df.rename(columns=rename_map)` applied to one label: last binding of
the dict wins (Python dict semantics), unmapped labels pass through. -/
def renameLookup (m : List (String × String)) (c : String) : String :=
  match m.reverse.find? (fun p => p.1 == c) with
  | some p => p.2
  | none => c

/-- `apply_aliases` on the column labels (src/app.py line 104):
`df.rename(columns=rename_map)` renames every column whose label is a key of
`rename_map`, leaving all other labels unchanged. -/
def apply_aliases (cols : List String) : List String :=
  cols.map (renameLookup (rename_map cols))

/-- All normalized alias search keys (the keys `norm(opt)` probed on
src/app.py line 97). -/
def aliasKeys : List String :=
  ((aliases.map Prod.snd).flatten).map norm

/-- The eight required canonical columns (src/app.py lines 109-118). -/
def required : List String :=
  ["Unidad", "Coordinación", "Dirección", "Tipo de Puesto", "Nivel Salarial",
   "Tipo de Plaza", "Justificación", "Plazas"]

/-- A data-frame row over the eight canonical fields.  All text fields are
`Option String` (`none` is pandas `NaN`); the `Plazas` cell type is a
parameter so the same record serves before (`Option String`) and after
(`Option Rat`) the numeric coercion of `coerce_plazas_numeric`. -/
structure RowG (α : Type) where
  unidad : Option String
  coordinacion : Option String
  direccion : Option String
  tipoPuesto : Option String
  nivelSalarial : Option String
  tipoPlaza : Option String
  justificacion : Option String
  plazas : α
  deriving Repr, DecidableEq

/-- Pandas `astype(str)` on one possibly-null cell: `NaN` prints as the
four-character string `"nan"`. -/
def astype_str (v : Option String) : String :=
  match v with
  | some s => s
  | none => "nan"

/-- `safe_text_series` (src/app.py lines 127-129): `astype(str).str.strip()`
on one cell. -/
def safe_text (v : Option String) : String :=
  pyStrip (astype_str v)

/-- The predicate of src/app.py line 150:
`safe_text_series(df[col]).str.upper().isin(["TOTAL", "TOTALES"])`. -/
def isTotalLike (v : Option String) : Bool :=
  (["TOTAL", "TOTALES"] : List String).contains (pyUpper (safe_text v))

/-- One iteration of the for-loop of `drop_total_like_rows`
(src/app.py lines 148-151): if the column is present, keep only rows whose
cell in that column is not TOTAL-like. -/
def dropIfTotal {α : Type} (cols : List String) (colName : String)
    (f : RowG α → Option String) (rows : List (RowG α)) : List (RowG α) :=
  if cols.contains colName then rows.filter (fun r => !isTotalLike (f r))
  else rows

/-- `drop_total_like_rows` (src/app.py lines 138-153): first drop rows with
null `Tipo de Plaza`, then drop TOTAL-like rows in
`Dirección`, `Tipo de Plaza`, `Unidad`, `Coordinación` (source loop order). -/
def drop_total_like_rows {α : Type} (cols : List String)
    (rows : List (RowG α)) : List (RowG α) :=
  dropIfTotal cols "Coordinación" RowG.coordinacion
    (dropIfTotal cols "Unidad" RowG.unidad
      (dropIfTotal cols "Tipo de Plaza" RowG.tipoPlaza
        (dropIfTotal cols "Dirección" RowG.direccion
          (rows.filter (fun r => r.tipoPlaza.isSome)))))

/-- Value of a digit list read in base 10. -/
def digitsToNat (l : List Char) : Nat :=
  l.foldl (fun acc c => acc * 10 + (c.toNat - 48)) 0

/-- Unsigned decimal numeral: digits with an optional `.`-separated
fractional part (at least one digit overall). -/
def parseUnsigned (l : List Char) : Option Rat :=
  let intPart := l.takeWhile Char.isDigit
  match l.dropWhile Char.isDigit with
  | [] => if intPart.isEmpty then none else some (digitsToNat intPart : Rat)
  | '.' :: frac =>
    if frac.all Char.isDigit && !(intPart.isEmpty && frac.isEmpty) then
      some ((digitsToNat intPart : Rat) +
        (digitsToNat frac : Rat) / ((10 : Rat) ^ frac.length))
    else none
  | _ => none

/-- `pd.to_numeric(s, errors="coerce")` on one text cell: parse an
optionally signed decimal numeral, surrounding whitespace allowed; any value
that fails to parse coerces to `NaN` (`none`), never an error.  (The pandas
parser additionally accepts exponent notation, which never occurs in the
`Plazas` column; the model covers the plain decimal fragment.) -/
def pyToNumeric (s : String) : Option Rat :=
  match pyStripList s.data with
  | '-' :: rest => (parseUnsigned rest).map (fun q => -q)
  | '+' :: rest => parseUnsigned rest
  | l => parseUnsigned l

/-- `pd.to_numeric` on a possibly-null cell: `NaN` stays `NaN`. -/
def coerce_plazas_cell (v : Option String) : Option Rat :=
  v.bind (fun s => pyToNumeric s)

/-- `coerce_plazas_numeric` (src/app.py lines 132-135): replace the `Plazas`
cell by its numeric coercion, leaving every other field unchanged. -/
def coerce_plazas_numeric (r : RowG (Option String)) : RowG (Option Rat) :=
  { unidad := r.unidad, coordinacion := r.coordinacion,
    direccion := r.direccion, tipoPuesto := r.tipoPuesto,
    nivelSalarial := r.nivelSalarial, tipoPlaza := r.tipoPlaza,
    justificacion := r.justificacion,
    plazas := coerce_plazas_cell r.plazas }

/-- The uploaded sheet after `pd.read_excel`: raw header labels plus rows. -/
structure Table where
  headers : List String
  rows : List (RowG (Option String))

/-- The core pipeline (src/app.py lines 185-191): `normalize_columns`,
`apply_aliases`, `ensure_required` (src/app.py lines 108-124: on any missing
required column report the missing list and the detected columns and
`st.stop()` — modelled as `Except.error (missing, columns)`), then
`coerce_plazas_numeric` and `drop_total_like_rows`. -/
def pipeline (t : Table) :
    Except (List String × List String) (List (RowG (Option Rat))) :=
  let cols := apply_aliases (normalize_columns t.headers)
  let missing := required.filter (fun c => !cols.contains c)
  if missing.isEmpty then
    Except.ok (drop_total_like_rows cols (t.rows.map coerce_plazas_numeric))
  else
    Except.error (missing, cols)

/-- One `if sel: df_f = df_f[df_f[col].isin(sel)]` block: an empty selection
imposes no restriction; `isin` is false on a null cell. -/
def isinFilter {α : Type} (sel : List String) (f : RowG α → Option String)
    (rows : List (RowG α)) : List (RowG α) :=
  if sel.isEmpty then rows
  else rows.filter (fun r =>
    match f r with
    | some s => sel.contains s
    | none => false)

/-- The three sequential filter blocks (src/app.py lines 206-212):
`Unidad`, then `Coordinación`, then `Dirección`. -/
def applyFilters {α : Type} (rows : List (RowG α))
    (usel csel dsel : List String) : List (RowG α) :=
  isinFilter dsel RowG.direccion
    (isinFilter csel RowG.coordinacion
      (isinFilter usel RowG.unidad rows))

/-- Per-column membership predicate: an empty selection accepts everything;
otherwise the cell must be non-null and selected. -/
def passSel (sel : List String) (v : Option String) : Bool :=
  sel.isEmpty ||
    (match v with
     | some s => sel.contains s
     | none => false)

/-- The justified-row filter of tab 2 (src/app.py lines 352-357): the column
is cast with `astype(str)` (so the `notna()` filter on line 355 keeps every
row), then rows whose stripped text is empty, `"NAN"` or `"NONE"`
(case-insensitively) are dropped. -/
def is_justified {α : Type} (r : RowG α) : Bool :=
  let t := pyStrip (astype_str r.justificacion)
  (t ≠ "") && !((["NAN", "NONE"] : List String).contains (pyUpper t))

/-- The `Plazas (suma)` KPI (src/app.py line 361):
`pd.to_numeric(df_j["Plazas"], errors="coerce").fillna(0).sum()` over the
justified rows (`Plazas` is already numeric at this point, so `to_numeric`
is the identity on it and `fillna(0)` maps `NaN` to `0`). -/
def tab2_plazas_sum (rows : List (RowG (Option Rat))) : Rat :=
  ((rows.filter is_justified).map (fun r => r.plazas.getD 0)).sum

/-- `ORDEN_PUESTO` (src/app.py lines 21-30): the fixed position-type
hierarchy. -/
def ORDEN_PUESTO : List String :=
  ["Dirección General", "Titular de Unidad", "Coordinador General",
   "Director de área", "Gerente", "Subgerente", "Enlace", "Operativo"]

/-- Distinct values in first-appearance order (the index underlying a pandas
`value_counts`). -/
def dedupAux : List String → List String → List String
  | _, [] => []
  | seen, x :: t =>
    if seen.contains x then dedupAux seen t
    else x :: dedupAux (x :: seen) t

def dedupFirst (l : List String) : List String :=
  dedupAux [] l

/-- Descending order on the counts of `(value, count)` entries. -/
def countDesc (a b : String × Nat) : Prop :=
  b.2 ≤ a.2

instance : DecidableRel countDesc :=
  fun a b => Nat.decLe b.2 a.2

instance : IsTotal (String × Nat) countDesc :=
  ⟨fun a b => Nat.le_total b.2 a.2⟩

instance : IsTrans (String × Nat) countDesc :=
  ⟨fun _ _ _ h1 h2 => Nat.le_trans h2 h1⟩

/-- `Series.value_counts()`: one `(value, count)` entry per distinct value,
sorted by count descending (stable, so equal counts keep first-appearance
order). -/
def value_counts (vs : List String) : List (String × Nat) :=
  List.insertionSort countDesc ((dedupFirst vs).map (fun v => (v, vs.count v)))

/-- The `Tipo de Puesto` chart data (src/app.py lines 261-279): the series
is `fillna("Sin Tipo de Puesto")` first; then
`value_counts().reindex(ORDEN_PUESTO).dropna()` — the hierarchy labels, in
hierarchy order, each with its count when present in the data — concatenated
with `value_counts().drop(index=ORDEN_PUESTO, errors="ignore")` — every
remaining label, still in descending-count order. -/
def puesto_count (rows : List (RowG (Option Rat))) : List (String × Nat) :=
  let vs := rows.map (fun r => r.tipoPuesto.getD "Sin Tipo de Puesto")
  let vc := value_counts vs
  (ORDEN_PUESTO.filterMap
    (fun p => (vc.find? (fun e => e.1 == p)).map (fun e => (p, e.2)))) ++
    vc.filter (fun e => !ORDEN_PUESTO.contains e.1)

theorem replaceDD_cons_cons_pos {a b : Char} (t : List Char)
    (hab : a = ' ' ∧ b = ' ') : replaceDD (a :: b :: t) = ' ' :: replaceDD t := by
  simp [replaceDD, hab]

theorem replaceDD_cons_cons_neg {a b : Char} (t : List Char)
    (hab : ¬(a = ' ' ∧ b = ' ')) :
    replaceDD (a :: b :: t) = a :: replaceDD (b :: t) := by
  simp [replaceDD, hab]

theorem hasDD_cons_cons (a b : Char) (t : List Char) :
    hasDD (a :: b :: t) = ((a = ' ' && b = ' ') || hasDD (b :: t)) := rfl

theorem replaceDD_length_le (l : List Char) : (replaceDD l).length ≤ l.length := by
  induction l using replaceDD.induct with
  | case1 => simp [replaceDD]
  | case2 c => simp [replaceDD]
  | case3 a b t hab ih =>
    rw [replaceDD_cons_cons_pos t hab]
    simp only [List.length_cons]
    omega
  | case4 a b t hab ih =>
    rw [replaceDD_cons_cons_neg t hab]
    simp only [List.length_cons] at ih ⊢
    omega

theorem replaceDD_length_lt {l : List Char} (h : hasDD l = true) :
    (replaceDD l).length < l.length := by
  induction l using replaceDD.induct with
  | case1 => simp [hasDD] at h
  | case2 c => simp [hasDD] at h
  | case3 a b t hab ih =>
    rw [replaceDD_cons_cons_pos t hab]
    have := replaceDD_length_le t
    simp only [List.length_cons]
    omega
  | case4 a b t hab ih =>
    have hh : hasDD (b :: t) = true := by
      rw [hasDD_cons_cons, Bool.or_eq_true, Bool.and_eq_true,
        decide_eq_true_eq, decide_eq_true_eq] at h
      tauto
    have := ih hh
    rw [replaceDD_cons_cons_neg t hab]
    simp only [List.length_cons] at this ⊢
    omega

/-- Running the collapse loop with at least `l.length` fuel reaches the fixed
point: no double space remains.  This shows the fuelled `collapseWhile` is the
`while` loop of the source. -/
theorem collapseFuel_noDD : ∀ (n : Nat) (l : List Char), l.length ≤ n →
    hasDD (collapseFuel n l) = false := by
  intro n
  induction n with
  | zero =>
    intro l hl
    have : l = [] := List.eq_nil_of_length_eq_zero (Nat.le_zero.mp hl)
    subst this
    simp [collapseFuel, hasDD]
  | succ n ih =>
    intro l hl
    by_cases h : hasDD l = true
    · have hlt := replaceDD_length_lt h
      simp only [collapseFuel, h, if_true]
      exact ih _ (by omega)
    · simp only [collapseFuel, h]
      simp only [Bool.not_eq_true] at h
      simpa using h

theorem collapseWhile_noDD (l : List Char) : hasDD (collapseWhile l) = false :=
  collapseFuel_noDD l.length l (Nat.le_refl _)

theorem hasDD_cons_of {x : Char} {l : List Char} (h : hasDD l = true) :
    hasDD (x :: l) = true := by
  match l with
  | [] => simp [hasDD] at h
  | [c] => simp [hasDD] at h
  | a :: b :: t => rw [hasDD_cons_cons]; simp [h]

theorem has3_cons_of {x : Char} {l : List Char} (h : has3 l = true) :
    has3 (x :: l) = true := by
  match l with
  | [] => simp [has3] at h
  | [c] => simp [has3] at h
  | [c, d] => simp [has3] at h
  | a :: b :: c :: t =>
    show ((x = ' ' && a = ' ' && b = ' ') || has3 (a :: b :: c :: t)) = true
    simp [h]

theorem has3_tail {x : Char} {l : List Char} (h : has3 (x :: l) = false) :
    has3 l = false := by
  by_contra hc
  simp only [Bool.not_eq_false] at hc
  rw [has3_cons_of hc] at h
  simp at h

theorem replaceDD_cons (a : Char) (t : List Char) :
    ∃ w, replaceDD (a :: t) = a :: w := by
  match t with
  | [] => exact ⟨[], rfl⟩
  | b :: t =>
    by_cases hab : a = ' ' ∧ b = ' '
    · refine ⟨replaceDD t, ?_⟩
      rw [replaceDD_cons_cons_pos t hab, hab.1]
    · exact ⟨replaceDD (b :: t), replaceDD_cons_cons_neg t hab⟩

theorem replaceDD_eq_self {l : List Char} (h : hasDD l = false) :
    replaceDD l = l := by
  induction l using replaceDD.induct with
  | case1 => rfl
  | case2 c => rfl
  | case3 a b t hab ih =>
    exfalso
    rw [hasDD_cons_cons] at h
    simp [hab.1, hab.2] at h
  | case4 a b t hab ih =>
    rw [hasDD_cons_cons, Bool.or_eq_false_iff] at h
    rw [replaceDD_cons_cons_neg t hab, ih h.2]

theorem mem_replaceDD {x : Char} {l : List Char} (h : x ∈ replaceDD l) :
    x ∈ l := by
  induction l using replaceDD.induct with
  | case1 => simp [replaceDD] at h
  | case2 c => simpa [replaceDD] using h
  | case3 a b t hab ih =>
    rw [replaceDD_cons_cons_pos t hab] at h
    rcases List.mem_cons.mp h with h | h
    · subst h; simp [hab.1]
    · simp [ih h]
  | case4 a b t hab ih =>
    rw [replaceDD_cons_cons_neg t hab] at h
    rcases List.mem_cons.mp h with h | h
    · simp [h]
    · simp [List.mem_cons.mp (ih h)]

/-- A single replacement pass removes every double space provided the input
had no run of three or more spaces. -/
theorem replaceDD_noDD_of_no3 {l : List Char} (h : has3 l = false) :
    hasDD (replaceDD l) = false := by
  induction l using replaceDD.induct with
  | case1 => rfl
  | case2 c => rfl
  | case3 a b t hab ih =>
    rw [replaceDD_cons_cons_pos t hab]
    match t, ih with
    | [], _ => rfl
    | c :: t, ih =>
      have hc : c ≠ ' ' := by
        intro hc
        rw [show has3 (a :: b :: c :: t) = true by
          show ((a = ' ' && b = ' ' && c = ' ') || _) = true
          simp [hab.1, hab.2, hc]] at h
        simp at h
      have h3 : has3 (c :: t) = false := has3_tail (has3_tail h)
      obtain ⟨w, hw⟩ := replaceDD_cons c t
      rw [hw, hasDD_cons_cons]
      have := ih h3
      rw [hw] at this
      simp [hc, this]
  | case4 a b t hab ih =>
    rw [replaceDD_cons_cons_neg t hab]
    obtain ⟨w, hw⟩ := replaceDD_cons b t
    rw [hw, hasDD_cons_cons]
    have := ih (has3_tail h)
    rw [hw] at this
    have hab' : (a = ' ' && b = ' ') = false := by
      rcases not_and_or.mp hab with h' | h' <;> simp [h']
    simp [hab', this]

theorem hasDD_append_dd (u v : List Char) :
    hasDD (u ++ ' ' :: ' ' :: v) = true := by
  induction u with
  | nil => rw [List.nil_append, hasDD_cons_cons]; simp
  | cons x u ih => exact hasDD_cons_of ih

theorem hasDD_iff_exists {l : List Char} :
    hasDD l = true ↔ ∃ u v, l = u ++ ' ' :: ' ' :: v := by
  constructor
  · intro h
    induction l with
    | nil => simp [hasDD] at h
    | cons a t ih =>
      match t, ih with
      | [], _ => simp [hasDD] at h
      | b :: t, ih =>
        rw [hasDD_cons_cons, Bool.or_eq_true, Bool.and_eq_true,
          decide_eq_true_eq, decide_eq_true_eq] at h
        rcases h with ⟨ha, hb⟩ | h
        · exact ⟨[], t, by rw [ha, hb]; rfl⟩
        · obtain ⟨u, v, huv⟩ := ih h
          exact ⟨a :: u, v, by rw [List.cons_append, huv]⟩
  · rintro ⟨u, v, rfl⟩
    exact hasDD_append_dd u v

theorem pyStripList_eq (l : List Char) :
    pyStripList l = dropTrail isPySpace (l.dropWhile isPySpace) := rfl

theorem dropWhile_idem (p : α → Bool) (l : List α) :
    List.dropWhile p (List.dropWhile p l) = List.dropWhile p l := by
  induction l with
  | nil => rfl
  | cons a t ih =>
    by_cases h : p a
    · simp [List.dropWhile_cons, h, ih]
    · simp [List.dropWhile_cons, h]

theorem dropTrail_idem (p : α → Bool) (l : List α) :
    dropTrail p (dropTrail p l) = dropTrail p l := by
  unfold dropTrail
  rw [List.reverse_reverse, dropWhile_idem]

theorem dropTrail_prefix (p : α → Bool) (l : List α) :
    ∃ w, l = dropTrail p l ++ w := by
  obtain ⟨w, hw⟩ := List.dropWhile_suffix (l := l.reverse) p
  refine ⟨w.reverse, ?_⟩
  have : l.reverse.reverse = (w ++ l.reverse.dropWhile p).reverse := by rw [hw]
  rw [List.reverse_reverse, List.reverse_append] at this
  exact this

theorem dropWhile_fix_head {p : α → Bool} {c : α} {t : List α}
    (h : List.dropWhile p (c :: t) = c :: t) : p c = false := by
  by_contra hc
  simp only [Bool.not_eq_false] at hc
  rw [List.dropWhile_cons, if_pos hc] at h
  have h1 : (List.dropWhile p t).length ≤ t.length :=
    (List.dropWhile_sublist p).length_le
  have h2 : (List.dropWhile p t).length = t.length + 1 := by rw [h]; rfl
  omega

theorem dropWhile_dropTrail_fix {p : α → Bool} {l : List α}
    (h : List.dropWhile p l = l) :
    List.dropWhile p (dropTrail p l) = dropTrail p l := by
  obtain ⟨w, hw⟩ := dropTrail_prefix p l
  match hm : dropTrail p l with
  | [] => rfl
  | c :: t =>
    rw [hm] at hw
    have hc : p c = false := by
      have : List.dropWhile p (c :: (t ++ w)) = c :: (t ++ w) := by
        rw [List.cons_append] at hw
        rw [← hw]
        exact h
      exact dropWhile_fix_head this
    rw [List.dropWhile_cons, hc]
    simp

theorem pyStripList_idem (l : List Char) :
    pyStripList (pyStripList l) = pyStripList l := by
  rw [pyStripList_eq, pyStripList_eq,
    dropWhile_dropTrail_fix (dropWhile_idem isPySpace l), dropTrail_idem]

theorem pyStripList_infix (l : List Char) :
    ∃ u v, l = u ++ pyStripList l ++ v := by
  obtain ⟨u, hu⟩ := List.dropWhile_suffix (l := l) isPySpace
  obtain ⟨w, hw⟩ := dropTrail_prefix isPySpace (l.dropWhile isPySpace)
  refine ⟨u, w, ?_⟩
  rw [pyStripList_eq, List.append_assoc, ← hw, hu]

theorem hasDD_of_pyStripList {l : List Char}
    (h : hasDD (pyStripList l) = true) : hasDD l = true := by
  obtain ⟨u, v, huv⟩ := pyStripList_infix l
  obtain ⟨x, y, hxy⟩ := hasDD_iff_exists.mp h
  refine hasDD_iff_exists.mpr ⟨u ++ x, y ++ v, ?_⟩
  rw [huv, hxy]
  simp [List.append_assoc]

theorem mem_pyStripList {x : Char} {l : List Char} (h : x ∈ pyStripList l) :
    x ∈ l := by
  rw [pyStripList_eq] at h
  unfold dropTrail at h
  rw [List.mem_reverse] at h
  have h1 := (List.dropWhile_sublist (l := (l.dropWhile isPySpace).reverse) isPySpace).subset h
  rw [List.mem_reverse] at h1
  exact (List.dropWhile_sublist (l := l) isPySpace).subset h1

theorem pyStripList_eq_self {l : List Char}
    (hh : List.dropWhile isPySpace l = l)
    (ht : dropTrail isPySpace l = l) : pyStripList l = l := by
  rw [pyStripList_eq, hh, ht]

theorem replaceCh_eq_self {a b : Char} {l : List Char} (h : a ∉ l) :
    replaceCh a b l = l := by
  unfold replaceCh
  have hc : ∀ c ∈ l, (if c = a then b else c) = id c := by
    intro c hc
    have hca : c ≠ a := fun hca => h (hca ▸ hc)
    simp [hca]
  rw [List.map_congr_left hc, List.map_id]

theorem not_mem_replaceCh_target {a b : Char} (hab : a ≠ b) (l : List Char) :
    a ∉ replaceCh a b l := by
  unfold replaceCh
  intro h
  obtain ⟨c, _, hc⟩ := List.mem_map.mp h
  by_cases hca : c = a
  · rw [if_pos hca] at hc; exact hab hc.symm
  · rw [if_neg hca] at hc; exact hca hc

theorem not_mem_replaceCh_of {a b x : Char} {l : List Char} (hx : x ∉ l)
    (hb : x ≠ b) : x ∉ replaceCh a b l := by
  unfold replaceCh
  intro h
  obtain ⟨c, hcl, hc⟩ := List.mem_map.mp h
  by_cases hca : c = a
  · rw [if_pos hca] at hc; exact hb hc.symm
  · rw [if_neg hca] at hc; exact hx (hc ▸ hcl)

theorem mapWS_no_ws (l : List Char) :
    '\n' ∉ mapWS l ∧ '\r' ∉ mapWS l ∧ '\t' ∉ mapWS l := by
  unfold mapWS
  refine ⟨?_, ?_, ?_⟩
  · exact not_mem_replaceCh_of
      (not_mem_replaceCh_of (not_mem_replaceCh_target (by decide) l)
        (by decide)) (by decide)
  · exact not_mem_replaceCh_of (not_mem_replaceCh_target (by decide) _)
      (by decide)
  · exact not_mem_replaceCh_target (by decide) _

theorem mapWS_eq_self {l : List Char} (h1 : '\n' ∉ l) (h2 : '\r' ∉ l)
    (h3 : '\t' ∉ l) : mapWS l = l := by
  unfold mapWS
  rw [replaceCh_eq_self h1, replaceCh_eq_self h2, replaceCh_eq_self h3]

theorem normalizeLabel_data (s : String) :
    (normalizeLabel s).data = pyStripList (replaceDD (mapWS s.data)) := rfl

theorem mem_normalizeLabel {x : Char} {s : String}
    (h : x ∈ (normalizeLabel s).data) : x ∈ mapWS s.data :=
  mem_replaceDD (mem_pyStripList (normalizeLabel_data s ▸ h))

theorem normalizeLabel_no_ws (s : String) :
    '\n' ∉ (normalizeLabel s).data ∧ '\r' ∉ (normalizeLabel s).data ∧
      '\t' ∉ (normalizeLabel s).data := by
  obtain ⟨h1, h2, h3⟩ := mapWS_no_ws s.data
  exact ⟨fun h => h1 (mem_normalizeLabel h), fun h => h2 (mem_normalizeLabel h),
    fun h => h3 (mem_normalizeLabel h)⟩

theorem normalizeLabel_idem {s : String}
    (h : hasDD (normalizeLabel s).data = false) :
    normalizeLabel (normalizeLabel s) = normalizeLabel s := by
  obtain ⟨h1, h2, h3⟩ := normalizeLabel_no_ws s
  show String.mk (pyStripList (replaceDD (mapWS (normalizeLabel s).data)))
      = normalizeLabel s
  rw [mapWS_eq_self h1 h2 h3, replaceDD_eq_self h, normalizeLabel_data,
    pyStripList_idem]
  rfl

/-- C1 counterexample: the label `"a   b"` (three embedded spaces) is
normalized to `"a  b"`, which still contains a double-space run — the single
non-overlapping `"  "`→`" "` pass of `normalize_columns` does not fully
collapse odd-length runs, so the claim as stated is false. -/
theorem normalize_columns_cex :
    normalize_columns ["a   b"] = ["a  b"] ∧
      hasDD (String.data "a  b") = true := by
  exact ⟨rfl, rfl⟩

/-- C1 (amended): after `normalize_columns` no output label contains a
newline, carriage-return or tab; the double-space collapse is a single
non-overlapping pass, so it removes every double space only when the label
(after the newline/CR/tab→space replacement) has no run of three or more
spaces — longer runs are only halved and may leave consecutive spaces. -/
theorem normalize_columns_whitespace (cols : List String) :
    (∀ l ∈ normalize_columns cols,
      '\n' ∉ l.data ∧ '\r' ∉ l.data ∧ '\t' ∉ l.data) ∧
    (∀ s ∈ cols, has3 (mapWS s.data) = false →
      hasDD (normalizeLabel s).data = false) := by
  constructor
  · intro l hl
    obtain ⟨s, _, rfl⟩ := List.mem_map.mp hl
    exact normalizeLabel_no_ws s
  · intro s _ h3
    have hz : hasDD (replaceDD (mapWS s.data)) = false :=
      replaceDD_noDD_of_no3 h3
    rw [normalizeLabel_data]
    by_contra hc
    simp only [Bool.not_eq_false] at hc
    rw [hasDD_of_pyStripList hc] at hz
    simp at hz

/-- Witness for `normalize_columns_whitespace` at the concrete header list
`["x\t\ty", "a\n b"]`. -/
theorem normalize_columns_whitespace_witness :
    ('\n' ∉ (String.data "x y") ∧ '\r' ∉ (String.data "x y") ∧
      '\t' ∉ (String.data "x y")) ∧
    hasDD (normalizeLabel "x\t\ty").data = false := by
  have h := normalize_columns_whitespace ["x\t\ty", "a\n b"]
  refine ⟨?_, h.2 "x\t\ty" (by decide) (by decide)⟩
  have h1 := h.1 "x y" (by decide)
  exact h1

/-- C2 counterexample: `normalize_columns` is not idempotent — on `["a   b"]`
one application leaves `"a  b"` while a second application collapses it
further to `"a b"`. -/
theorem normalize_columns_not_idem :
    normalize_columns (normalize_columns ["a   b"]) ≠
      normalize_columns ["a   b"] := by
  decide

/-- C2 (amended): `normalize_columns` is a total function (it always
succeeds, including on the empty label sequence), but it is idempotent only
on inputs whose once-normalized labels contain no residual double space
(e.g. labels without runs of three or more spaces); in general a second
application can collapse spaces further. -/
theorem normalize_columns_idem_of_noDD (cols : List String)
    (h : ∀ l ∈ normalize_columns cols, hasDD l.data = false) :
    normalize_columns (normalize_columns cols) = normalize_columns cols := by
  unfold normalize_columns at *
  rw [List.map_map]
  refine List.map_congr_left ?_
  intro s hs
  exact normalizeLabel_idem (h (normalizeLabel s) (List.mem_map_of_mem _ hs))

/-- Witness for `normalize_columns_idem_of_noDD` at the concrete header list
`["Dirección\n", "Tipo  de Plaza", "Plazas "]`. -/
theorem normalize_columns_idem_witness :
    (∀ l ∈ normalize_columns ["Dirección\n", "Tipo  de Plaza", "Plazas "],
      hasDD l.data = false) ∧
    normalize_columns (normalize_columns
        ["Dirección\n", "Tipo  de Plaza", "Plazas "]) =
      normalize_columns ["Dirección\n", "Tipo  de Plaza", "Plazas "] :=
  ⟨by decide, normalize_columns_idem_of_noDD _ (by decide)⟩

-- facts about the concrete alias table, checked by evaluation
theorem alias_variants_norm_fixed : ∀ p ∈ aliases, ∀ w ∈ p.2, norm w = w := by
  decide

theorem alias_variants_disjoint :
    ∀ p ∈ aliases, ∀ q ∈ aliases, ∀ w ∈ p.2, w ∈ q.2 → p = q := by
  decide

theorem aliases_nodup : aliases.Nodup := by decide

theorem canonical_norm_mem_keys : ∀ p ∈ aliases, norm p.1 ∈ aliasKeys := by
  decide

theorem variant_mem_keys : ∀ p ∈ aliases, ∀ w ∈ p.2, norm w ∈ aliasKeys := by
  decide

theorem find_eq_some_of_unique {α : Type} {p : α → Bool} {l : List α} {h : α}
    (hmem : h ∈ l) (hp : p h = true)
    (huniq : ∀ c ∈ l, p c = true → c = h) : l.find? p = some h := by
  induction l with
  | nil => cases hmem
  | cons a t ih =>
    by_cases ha : p a = true
    · have hah : a = h := huniq a (List.mem_cons_self a t) ha
      subst hah
      simp [List.find?_cons, ha]
    · have heq : p a = false := by simpa using ha
      have hmem' : h ∈ t := by
        rcases List.mem_cons.mp hmem with rfl | hm
        · exact absurd hp ha
        · exact hm
      simp only [List.find?_cons, heq, cond_false]
      exact ih hmem' (fun c hc hpc => huniq c (List.mem_cons_of_mem _ hc) hpc)

theorem filterMap_eq_single {α β : Type} [DecidableEq α] {g : α → Option β}
    {l : List α} {a : α} {b : β}
    (hga : g a = some b) (hcount : l.count a = 1)
    (hother : ∀ x ∈ l, x ≠ a → g x = none) :
    l.filterMap g = [b] := by
  induction l with
  | nil => simp at hcount
  | cons x t ih =>
    by_cases hx : x = a
    · subst hx
      rw [List.count_cons_self] at hcount
      have ht : t.count x = 0 := by omega
      have hnil : t.filterMap g = [] := by
        rw [List.filterMap_eq_nil_iff]
        intro y hy
        have hyx : y ≠ x := fun hyx =>
          (List.count_eq_zero.mp ht) (hyx ▸ hy)
        exact hother y (List.mem_cons_of_mem _ hy) hyx
      rw [List.filterMap_cons, hga, hnil]
    · have hgx : g x = none := hother x (List.mem_cons_self x t) hx
      rw [List.filterMap_cons, hgx]
      refine ih ?_ ?_
      · rwa [List.count_cons_of_ne (fun h => hx h.symm)] at hcount
      · exact fun y hy => hother y (List.mem_cons_of_mem _ hy)

theorem findAliasOriginal_eq_aux {cols : List String} {v h₀ : String}
    (H : ∀ k ∈ aliasKeys, lookupLast k cols = if k = v then some h₀ else none)
    (opts : List String) (hw : ∀ w ∈ opts, norm w = w ∧ norm w ∈ aliasKeys) :
    findAliasOriginal cols opts = if v ∈ opts then some h₀ else none := by
  induction opts with
  | nil => simp [findAliasOriginal]
  | cons opt opts ih =>
    obtain ⟨hfix, hkey⟩ := hw opt (List.mem_cons_self opt opts)
    have hL := H (norm opt) hkey
    rw [hfix] at hL
    have hstep : findAliasOriginal cols (opt :: opts) =
        (match lookupLast (norm opt) cols with
          | some orig => some orig
          | none => findAliasOriginal cols opts) := rfl
    rw [hstep, hfix, hL]
    by_cases hov : opt = v
    · subst hov
      simp [List.mem_cons]
    · rw [if_neg hov]
      show findAliasOriginal cols opts = _
      rw [ih (fun w hw' => hw w (List.mem_cons_of_mem _ hw'))]
      by_cases hvo : v ∈ opts
      · rw [if_pos hvo, if_pos (List.mem_cons_of_mem _ hvo)]
      · have hnm : v ∉ opt :: opts := by
          intro hvm
          rcases List.mem_cons.mp hvm with h1 | h1
          · exact hov h1.symm
          · exact hvo h1
        rw [if_neg hvo, if_neg hnm]

theorem rename_map_single {cols : List String} {F v h₀ : String}
    {opts : List String}
    (hFv : (F, opts) ∈ aliases) (hv : v ∈ opts)
    (H : ∀ k ∈ aliasKeys, lookupLast k cols = if k = v then some h₀ else none) :
    rename_map cols = [(h₀, F)] := by
  unfold rename_map
  refine filterMap_eq_single (a := (F, opts)) ?_ ?_ ?_
  · have hfa := findAliasOriginal_eq_aux H opts
      (fun w hw => ⟨alias_variants_norm_fixed _ hFv w hw,
        variant_mem_keys _ hFv w hw⟩)
    simp only [hfa, if_pos hv, Option.map_some']
  · exact List.count_eq_one_of_mem aliases_nodup hFv
  · intro p hp hpne
    have hfa := findAliasOriginal_eq_aux H p.2
      (fun w hw => ⟨alias_variants_norm_fixed _ hp w hw,
        variant_mem_keys _ hp w hw⟩)
    have hvp : v ∉ p.2 := by
      intro hvp
      exact hpne (alias_variants_disjoint p hp (F, opts) hFv v hvp hv)
    simp only [hfa, if_neg hvp, Option.map_none']

theorem apply_aliases_single_hit {cols : List String} {F v h₀ : String}
    {opts : List String}
    (hFv : (F, opts) ∈ aliases) (hv : v ∈ opts)
    (H : ∀ k ∈ aliasKeys, lookupLast k cols = if k = v then some h₀ else none) :
    apply_aliases cols = cols.map (fun c => if c = h₀ then F else c) := by
  unfold apply_aliases
  rw [rename_map_single hFv hv H]
  refine List.map_congr_left ?_
  intro c _
  unfold renameLookup
  by_cases hc : c = h₀
  · subst hc
    simp
  · have hne : ¬h₀ = c := fun h => hc h.symm
    have hbeq : (h₀ == c) = false := by
      simpa using hne
    simp [List.find?_cons, hbeq, hc]

/-- C6: if `(F, opts)` is an entry of the alias table, `v ∈ opts` one of its
variants, and the table's only header matching any alias is a single
occurrence of a header `h` whose search key is `v` (any casing/whitespace
variant of `v`), then alias resolution produces exactly one column named `F`,
and every other header — in particular every header matching no alias — is
left unchanged in place. -/
theorem alias_resolution_unique_variant {F v : String} {opts : List String}
    (hFv : (F, opts) ∈ aliases) (hv : v ∈ opts)
    {cols : List String} {h : String}
    (hmem : h ∈ cols) (hcount : cols.count h = 1) (hnorm : norm h = v)
    (honly : ∀ c ∈ cols, c ≠ h → norm c ∉ aliasKeys) :
    (apply_aliases cols).count F = 1 ∧
      apply_aliases cols = cols.map (fun c => if c = h then F else c) := by
  have hvkey : v ∈ aliasKeys := by
    have hk := variant_mem_keys _ hFv v hv
    rwa [alias_variants_norm_fixed _ hFv v hv] at hk
  have H : ∀ k ∈ aliasKeys,
      lookupLast k cols = if k = v then some h else none := by
    intro k hk
    by_cases hkv : k = v
    · subst hkv
      rw [if_pos rfl]
      unfold lookupLast
      refine find_eq_some_of_unique (List.mem_reverse.mpr hmem) ?_ ?_
      · simp [hnorm]
      · intro c hc hpc
        rw [List.mem_reverse] at hc
        by_contra hch
        have hnc : norm c = k := by simpa using hpc
        exact (honly c hc hch) (hnc ▸ hk)
    · rw [if_neg hkv]
      unfold lookupLast
      rw [List.find?_eq_none]
      intro c hc
      rw [List.mem_reverse] at hc
      simp only [beq_iff_eq]
      intro hnc
      by_cases hch : c = h
      · subst hch
        rw [hnorm] at hnc
        exact hkv hnc.symm
      · exact honly c hc hch (hnc ▸ hk)
  have heq := apply_aliases_single_hit hFv hv H
  refine ⟨?_, heq⟩
  rw [heq, List.count_eq_countP, List.countP_map]
  have hpt : ∀ c ∈ cols,
      (((fun x => x == F) ∘ (fun c => if c = h then F else c)) c = true) ↔
        ((c == h) = true) := by
    intro c hc
    by_cases hch : c = h
    · subst hch
      simp
    · have hcF : c ≠ F := by
        intro hcF
        subst hcF
        exact honly c hc hch (canonical_norm_mem_keys _ hFv)
      simp [Function.comp, if_neg hch, hcF, hch]
  rw [List.countP_congr hpt]
  rw [← List.count_eq_countP]
  exact hcount

/-- Witness for `alias_resolution_unique_variant`: the header list
`["DIRECCION", "Otro"]`, whose only alias-matching header `"DIRECCION"`
normalizes to the variant `"direccion"` of `"Dirección"`. -/
theorem alias_resolution_unique_variant_witness :
    (apply_aliases ["DIRECCION", "Otro"]).count "Dirección" = 1 ∧
      apply_aliases ["DIRECCION", "Otro"] =
        (["DIRECCION", "Otro"].map
          (fun c => if c = "DIRECCION" then "Dirección" else c)) :=
  alias_resolution_unique_variant
    (show ("Dirección", ["dirección", "direccion"]) ∈ aliases by decide)
    (show "direccion" ∈ ["dirección", "direccion"] by decide)
    (show "DIRECCION" ∈ ["DIRECCION", "Otro"] by decide)
    (show (["DIRECCION", "Otro"] : List String).count "DIRECCION" = 1 by decide)
    (show norm "DIRECCION" = "direccion" by decide)
    (by decide)

theorem lookupLast_append (k : String) (l₁ l₂ : List String) :
    lookupLast k (l₁ ++ l₂) = (lookupLast k l₂).or (lookupLast k l₁) := by
  unfold lookupLast
  rw [List.reverse_append, List.find?_append]

theorem lookupLast_singleton (k c : String) :
    lookupLast k [c] = if norm c = k then some c else none := by
  unfold lookupLast
  by_cases h : norm c = k
  · simp [List.find?_cons, h]
  · have hb : (norm c == k) = false := by simpa using h
    simp [List.find?_cons, hb, h]

theorem lookupLast_none_of {k : String} {l : List String}
    (h : ∀ c ∈ l, norm c ≠ k) : lookupLast k l = none := by
  unfold lookupLast
  rw [List.find?_eq_none]
  intro c hc
  rw [List.mem_reverse] at hc
  simpa using h c hc

/-- C9: when two distinct original headers — `h₁` earlier, `h₂` later in the
column order — both normalize to the same alias search key `v` of canonical
field `F`, and no other header matches any alias, resolution renames the
LAST-positioned header `h₂` to `F` and keeps the earlier `h₁` under its
original name: the `col_norm_map` dict is built left to right with later
entries overwriting earlier ones. -/
theorem alias_resolution_last_wins {F v : String} {opts : List String}
    (hFv : (F, opts) ∈ aliases) (hv : v ∈ opts)
    {xs ys zs : List String} {h₁ h₂ : String}
    (hne : h₁ ≠ h₂) (h1n : norm h₁ = v) (h2n : norm h₂ = v)
    (hrest : ∀ c ∈ xs ++ ys ++ zs, norm c ∉ aliasKeys) :
    apply_aliases (xs ++ h₁ :: ys ++ h₂ :: zs) =
      xs ++ h₁ :: ys ++ F :: zs := by
  have hvkey : v ∈ aliasKeys := by
    have hk := variant_mem_keys _ hFv v hv
    rwa [alias_variants_norm_fixed _ hFv v hv] at hk
  have hxs : ∀ c ∈ xs, norm c ∉ aliasKeys :=
    fun c hc => hrest c (by simp [hc])
  have hys : ∀ c ∈ ys, norm c ∉ aliasKeys :=
    fun c hc => hrest c (by simp [hc])
  have hzs : ∀ c ∈ zs, norm c ∉ aliasKeys :=
    fun c hc => hrest c (by simp [hc])
  have H : ∀ k ∈ aliasKeys,
      lookupLast k (xs ++ h₁ :: ys ++ h₂ :: zs) =
        if k = v then some h₂ else none := by
    intro k hk
    have hxsn : lookupLast k xs = none :=
      lookupLast_none_of (fun c hc he => hxs c hc (he ▸ hk))
    have hysn : lookupLast k ys = none :=
      lookupLast_none_of (fun c hc he => hys c hc (he ▸ hk))
    have hzsn : lookupLast k zs = none :=
      lookupLast_none_of (fun c hc he => hzs c hc (he ▸ hk))
    have hsplit : xs ++ h₁ :: ys ++ h₂ :: zs =
        xs ++ ([h₁] ++ (ys ++ ([h₂] ++ zs))) := by
      simp
    rw [hsplit, lookupLast_append, lookupLast_append, lookupLast_append,
      lookupLast_append, hxsn, hysn, hzsn, lookupLast_singleton,
      lookupLast_singleton, h1n, h2n]
    by_cases hkv : k = v
    · subst hkv
      simp [Option.or]
    · have h1' : ¬(v = k) := fun he => hkv he.symm
      simp [h1', hkv, Option.or]
  have heq := apply_aliases_single_hit hFv hv H
  rw [heq]
  have hmapxs : xs.map (fun c => if c = h₂ then F else c) = xs := by
    have hpt : ∀ c ∈ xs, (fun c => if c = h₂ then F else c) c = id c := by
      intro c hc
      have : c ≠ h₂ := fun he => hxs c hc (he ▸ h2n ▸ hvkey)
      simp [this]
    rw [List.map_congr_left hpt, List.map_id]
  have hmapys : ys.map (fun c => if c = h₂ then F else c) = ys := by
    have hpt : ∀ c ∈ ys, (fun c => if c = h₂ then F else c) c = id c := by
      intro c hc
      have : c ≠ h₂ := fun he => hys c hc (he ▸ h2n ▸ hvkey)
      simp [this]
    rw [List.map_congr_left hpt, List.map_id]
  have hmapzs : zs.map (fun c => if c = h₂ then F else c) = zs := by
    have hpt : ∀ c ∈ zs, (fun c => if c = h₂ then F else c) c = id c := by
      intro c hc
      have : c ≠ h₂ := fun he => hzs c hc (he ▸ h2n ▸ hvkey)
      simp [this]
    rw [List.map_congr_left hpt, List.map_id]
  simp only [List.map_append, List.map_cons, hmapxs, hmapys, hmapzs,
    if_neg hne]
  simp

/-- Witness for `alias_resolution_last_wins`: headers
`["Unidad ", "UNIDAD", "Foo"]` — both `"Unidad "` and `"UNIDAD"` normalize to
the variant `"unidad"`; the later one is renamed to `"Unidad"`, the earlier
one keeps its original label. -/
theorem alias_resolution_last_wins_witness :
    apply_aliases ["Unidad ", "UNIDAD", "Foo"] =
      ["Unidad ", "Unidad", "Foo"] := by
  have h := alias_resolution_last_wins
    (show ("Unidad", ["unidad"]) ∈ aliases by decide)
    (show "unidad" ∈ ["unidad"] by decide)
    (show "Unidad " ≠ "UNIDAD" by decide)
    (show norm "Unidad " = "unidad" by decide)
    (show norm "UNIDAD" = "unidad" by decide)
    (show ∀ c ∈ ([] ++ [] ++ ["Foo"] : List String),
      norm c ∉ aliasKeys by decide)
  simpa using h

/-- C3: the pipeline fails exactly when some required canonical field is
absent from the resolved columns; on failure the reported payload is exactly
the ordered set of missing required fields together with the full list of
columns present, and no cleaned table is produced (the gate fires before any
row cleaning); when nothing is missing the pipeline continues and produces
the cleaned table of the unchanged resolved input. -/
theorem schema_gate (t : Table) :
    ((∃ c ∈ required, c ∉ apply_aliases (normalize_columns t.headers)) ↔
      ∃ e, pipeline t = Except.error e) ∧
    (∀ e, pipeline t = Except.error e →
      e = (required.filter
             (fun c =>
               !(apply_aliases (normalize_columns t.headers)).contains c),
           apply_aliases (normalize_columns t.headers))) ∧
    ((∀ c ∈ required, c ∈ apply_aliases (normalize_columns t.headers)) →
      pipeline t = Except.ok
        (drop_total_like_rows (apply_aliases (normalize_columns t.headers))
          (t.rows.map coerce_plazas_numeric))) := by
  have hchar :
      (required.filter
        (fun c => !(apply_aliases (normalize_columns t.headers)).contains c))
          = [] ↔
        ∀ c ∈ required, c ∈ apply_aliases (normalize_columns t.headers) := by
    rw [List.filter_eq_nil_iff]
    constructor
    · intro h c hc
      have := h c hc
      simpa using this
    · intro h c hc
      simpa using h c hc
  by_cases hm :
      (required.filter
        (fun c => !(apply_aliases (normalize_columns t.headers)).contains c))
          = []
  · have hok : pipeline t = Except.ok
        (drop_total_like_rows (apply_aliases (normalize_columns t.headers))
          (t.rows.map coerce_plazas_numeric)) := by
      unfold pipeline
      rw [if_pos (by simpa [List.isEmpty_iff] using hm)]
    refine ⟨?_, ?_, fun _ => hok⟩
    · constructor
      · intro hex
        obtain ⟨c, hc, hcn⟩ := hex
        exact absurd (hchar.mp hm c hc) hcn
      · intro hex
        obtain ⟨e, he⟩ := hex
        rw [hok] at he
        cases he
    · intro e he
      rw [hok] at he
      cases he
  · have herr : pipeline t = Except.error
        (required.filter
           (fun c =>
             !(apply_aliases (normalize_columns t.headers)).contains c),
         apply_aliases (normalize_columns t.headers)) := by
      unfold pipeline
      rw [if_neg (by simpa [List.isEmpty_iff] using hm)]
    refine ⟨?_, ?_, ?_⟩
    · constructor
      · intro _
        exact ⟨_, herr⟩
      · intro _
        by_contra hex
        push_neg at hex
        exact hm (hchar.mpr hex)
    · intro e he
      rw [herr] at he
      cases he
      rfl
    · intro hall
      exact absurd (hchar.mpr hall) hm

/-- Witness for `schema_gate`: a table whose headers resolve to
`["Unidad", "Plazas"]` only; the pipeline reports the six missing required
fields together with the detected columns, and a table with all eight
resolved columns passes the gate. -/
theorem schema_gate_witness :
    pipeline (Table.mk ["unidad", "Plazas "] []) = Except.error
      (["Coordinación", "Dirección", "Tipo de Puesto", "Nivel Salarial",
        "Tipo de Plaza", "Justificación"], ["Unidad", "Plazas"]) := by
  have h := (schema_gate (Table.mk ["unidad", "Plazas "] [])).1.mp
    (by decide)
  obtain ⟨e, he⟩ := h
  have he2 := (schema_gate (Table.mk ["unidad", "Plazas "] [])).2.1 e he
  rw [he, he2]
  rfl

/-- C4: on a validated table (all four grouping columns present), the Row
Cleaner keeps exactly the rows whose `Tipo de Plaza` is non-null and whose
`Dirección`, `Tipo de Plaza`, `Unidad` and `Coordinación` cells do not trim
and uppercase to `"TOTAL"` or `"TOTALES"`; every other row is dropped and
all remaining rows are kept. -/
theorem drop_total_like_rows_spec (cols : List String)
    (rows : List (RowG (Option Rat)))
    (h1 : "Dirección" ∈ cols) (h2 : "Tipo de Plaza" ∈ cols)
    (h3 : "Unidad" ∈ cols) (h4 : "Coordinación" ∈ cols) :
    drop_total_like_rows cols rows = rows.filter
      (fun r => r.tipoPlaza.isSome && !isTotalLike r.direccion &&
        !isTotalLike r.tipoPlaza && !isTotalLike r.unidad &&
        !isTotalLike r.coordinacion) := by
  have hc1 : cols.contains "Dirección" = true := by
    simpa using h1
  have hc2 : cols.contains "Tipo de Plaza" = true := by
    simpa using h2
  have hc3 : cols.contains "Unidad" = true := by
    simpa using h3
  have hc4 : cols.contains "Coordinación" = true := by
    simpa using h4
  unfold drop_total_like_rows dropIfTotal
  rw [if_pos hc1, if_pos hc2, if_pos hc3, if_pos hc4]
  simp only [List.filter_filter]
  refine List.filter_congr ?_
  intro r _
  cases hb1 : r.tipoPlaza.isSome <;>
    cases hb2 : isTotalLike r.direccion <;>
    cases hb3 : isTotalLike r.tipoPlaza <;>
    cases hb4 : isTotalLike r.unidad <;>
    cases hb5 : isTotalLike r.coordinacion <;> rfl

/-- Witness for `drop_total_like_rows_spec` on the eight canonical columns
and three concrete rows: a row with null `Tipo de Plaza` and a
`Dirección = " total "` row are dropped, a normal row survives. -/
theorem drop_total_like_rows_witness :
    drop_total_like_rows required
        [RowG.mk (some "U") (some "C") (some "D") (some "P") (some "N")
           none (some "J") (some (1 : Rat)),
         RowG.mk (some "U") (some "C") (some " total ") (some "P") (some "N")
           (some "Eventual") (some "J") (some (2 : Rat)),
         RowG.mk (some "U") (some "C") (some "D") (some "P") (some "N")
           (some "Eventual") (some "J") (some (3 : Rat))] =
      [RowG.mk (some "U") (some "C") (some "D") (some "P") (some "N")
         (some "Eventual") (some "J") (some (3 : Rat))] := by
  rw [drop_total_like_rows_spec required _ (by decide) (by decide) (by decide)
    (by decide)]
  rfl

/-- C5: coercing `Plazas` is total and never errors — a cell that fails
numeric parsing (or is already null) becomes the missing marker `none` — and
the justified-plazas KPI sum is unchanged when rows with missing `Plazas`
are removed: missing values contribute exactly zero to the sum. -/
theorem plazas_coercion_missing_as_zero :
    (∀ r : RowG (Option String),
      (∀ s, r.plazas = some s → pyToNumeric s = none) →
        (coerce_plazas_numeric r).plazas = none) ∧
    (∀ rows : List (RowG (Option Rat)),
      tab2_plazas_sum rows =
        tab2_plazas_sum (rows.filter (fun r => r.plazas.isSome))) := by
  constructor
  · intro r h
    show coerce_plazas_cell r.plazas = none
    match hp : r.plazas with
    | none => rfl
    | some s =>
      show (some s).bind (fun s => pyToNumeric s) = none
      rw [Option.some_bind, h s hp]
  · intro rows
    unfold tab2_plazas_sum
    rw [List.filter_filter]
    induction rows with
    | nil => rfl
    | cons r t ih =>
      rw [List.filter_cons, List.filter_cons]
      by_cases hj : is_justified r
      · by_cases hs : r.plazas.isSome
        · simp only [hj, hs, Bool.and_self, if_pos, List.map_cons,
            List.sum_cons, Bool.and_true, and_true]
          rw [ih]
        · have hnone : r.plazas = none := by
            cases hp : r.plazas with
            | none => rfl
            | some q => rw [hp] at hs; simp at hs
          rw [if_pos (by simp [hj]), if_neg (by simp [hs])]
          simp only [List.map_cons, List.sum_cons, hnone, Option.getD_none]
          rw [ih]
          ring_nf
      · rw [if_neg (by simp [hj]), if_neg (by simp [hj])]
        exact ih

/-- Witness for `plazas_coercion_missing_as_zero`: the unparsable cell
`"N/A"` coerces to `none`, and on a concrete justified table a row with
missing `Plazas` contributes nothing to the KPI sum. -/
theorem plazas_coercion_witness :
    (coerce_plazas_numeric (RowG.mk (some "U") (some "C") (some "D")
        (some "P") (some "N") (some "Eventual") (some "J")
        (some "N/A"))).plazas = none ∧
    tab2_plazas_sum
        [RowG.mk (some "U") (some "C") (some "D") (some "P") (some "N")
           (some "Eventual") (some "ok") none,
         RowG.mk (some "U") (some "C") (some "D") (some "P") (some "N")
           (some "Eventual") (some "ok") (some (5 : Rat))] =
      tab2_plazas_sum
        [RowG.mk (some "U") (some "C") (some "D") (some "P") (some "N")
           (some "Eventual") (some "ok") (some (5 : Rat))] := by
  constructor
  · exact plazas_coercion_missing_as_zero.1 _ (fun s hs => by
      cases hs
      rfl)
  · have h := plazas_coercion_missing_as_zero.2
      [RowG.mk (some "U") (some "C") (some "D") (some "P") (some "N")
         (some "Eventual") (some "ok") none,
       RowG.mk (some "U") (some "C") (some "D") (some "P") (some "N")
         (some "Eventual") (some "ok") (some (5 : Rat))]
    rw [h]
    rfl

theorem isinFilter_eq_filter {α : Type} (sel : List String)
    (f : RowG α → Option String) (rows : List (RowG α)) :
    isinFilter sel f rows = rows.filter (fun r => passSel sel (f r)) := by
  unfold isinFilter passSel
  by_cases hs : sel.isEmpty
  · rw [if_pos hs]
    have : ∀ r ∈ rows, (sel.isEmpty ||
        (match f r with
         | some s => sel.contains s
         | none => false)) = true := by
      intro r _
      simp [hs]
    conv_lhs => rw [← List.filter_true rows]
    exact (List.filter_congr (fun r hr => by simp [hs])).symm
  · rw [if_neg hs]
    refine List.filter_congr ?_
    intro r _
    have : sel.isEmpty = false := by simpa using hs
    rw [this, Bool.false_or]

/-- C7: the Filter Engine returns exactly the rows satisfying the
conjunction of the three per-column membership predicates, where an empty
selection for a column imposes no restriction; in particular an all-empty
selection returns the table unchanged, and a selection whose values are
absent from the data yields the empty row list rather than an error. -/
theorem filter_engine_spec :
    (∀ (rows : List (RowG (Option Rat))), applyFilters rows [] [] [] = rows) ∧
    (∀ (rows : List (RowG (Option Rat))) (usel csel dsel : List String),
      applyFilters rows usel csel dsel = rows.filter
        (fun r => passSel usel r.unidad && passSel csel r.coordinacion &&
          passSel dsel r.direccion)) ∧
    (∀ (rows : List (RowG (Option Rat))) (usel csel dsel : List String),
      usel ≠ [] → (∀ r ∈ rows, ∀ s, r.unidad = some s → s ∉ usel) →
      applyFilters rows usel csel dsel = []) := by
  have hmain : ∀ (rows : List (RowG (Option Rat)))
      (usel csel dsel : List String),
      applyFilters rows usel csel dsel = rows.filter
        (fun r => passSel usel r.unidad && passSel csel r.coordinacion &&
          passSel dsel r.direccion) := by
    intro rows usel csel dsel
    unfold applyFilters
    rw [isinFilter_eq_filter, isinFilter_eq_filter, isinFilter_eq_filter]
    simp only [List.filter_filter]
    refine List.filter_congr ?_
    intro r _
    cases hu : passSel usel r.unidad <;> cases hc : passSel csel r.coordinacion <;>
      cases hd : passSel dsel r.direccion <;> rfl
  refine ⟨?_, hmain, ?_⟩
  · intro rows
    rw [hmain]
    have : ∀ r ∈ rows, (passSel [] r.unidad && passSel [] r.coordinacion &&
        passSel [] r.direccion) = true := by
      intro r _
      rfl
    rw [List.filter_congr this, List.filter_true]
  · intro rows usel csel dsel hne habs
    rw [hmain, List.filter_eq_nil_iff]
    intro r hr
    have hu : passSel usel r.unidad = false := by
      unfold passSel
      have h1 : usel.isEmpty = false := by
        simpa [List.isEmpty_iff] using hne
      rw [h1, Bool.false_or]
      match hv : r.unidad with
      | none => rfl
      | some s =>
        have := habs r hr s hv
        simpa using this
    simp [hu]

/-- Witness for `filter_engine_spec`: on a two-row table, an all-empty
selection returns the table unchanged, a `Unidad` selection keeps exactly
the matching row, and a selection value absent from the data yields zero
rows. -/
theorem filter_engine_witness :
    applyFilters
        [RowG.mk (some "U1") (some "C") (some "D") (some "P") (some "N")
           (some "E") (some "J") (some (1 : Rat)),
         RowG.mk (some "U2") (some "C") (some "D") (some "P") (some "N")
           (some "E") (some "J") (some (2 : Rat))] [] [] [] =
      [RowG.mk (some "U1") (some "C") (some "D") (some "P") (some "N")
         (some "E") (some "J") (some (1 : Rat)),
       RowG.mk (some "U2") (some "C") (some "D") (some "P") (some "N")
         (some "E") (some "J") (some (2 : Rat))] ∧
    applyFilters
        [RowG.mk (some "U1") (some "C") (some "D") (some "P") (some "N")
           (some "E") (some "J") (some (1 : Rat)),
         RowG.mk (some "U2") (some "C") (some "D") (some "P") (some "N")
           (some "E") (some "J") (some (2 : Rat))] ["NOPE"] [] [] = [] := by
  constructor
  · exact filter_engine_spec.1 _
  · exact filter_engine_spec.2.2 _ ["NOPE"] [] [] (by decide)
      (by decide)

theorem isinFilter_sublist {α : Type} (sel : List String)
    (f : RowG α → Option String) (rows : List (RowG α)) :
    List.Sublist (isinFilter sel f rows) rows := by
  unfold isinFilter
  by_cases hs : sel.isEmpty
  · rw [if_pos hs]
  · rw [if_neg hs]
    exact List.filter_sublist rows

theorem dropIfTotal_sublist {α : Type} (cols : List String) (colName : String)
    (f : RowG α → Option String) (rows : List (RowG α)) :
    List.Sublist (dropIfTotal cols colName f rows) rows := by
  unfold dropIfTotal
  by_cases hc : cols.contains colName
  · rw [if_pos hc]
    exact List.filter_sublist rows
  · rw [if_neg hc]

/-- C10: every row-dropping operation — the Row Cleaner (null-key and
TOTAL-row removals, for any set of present columns) and each filter
restriction, as well as their full composition for any selection — returns a
subsequence of its input: surviving rows keep their original relative order
and field values, and no row is duplicated. -/
theorem row_dropping_sublist :
    (∀ (cols : List String) (rows : List (RowG (Option Rat))),
      List.Sublist (drop_total_like_rows cols rows) rows) ∧
    (∀ (sel : List String) (f : RowG (Option Rat) → Option String)
      (rows : List (RowG (Option Rat))),
      List.Sublist (isinFilter sel f rows) rows) ∧
    (∀ (rows : List (RowG (Option Rat))) (usel csel dsel : List String),
      List.Sublist (applyFilters rows usel csel dsel) rows) := by
  refine ⟨?_, ?_, ?_⟩
  · intro cols rows
    unfold drop_total_like_rows
    exact (dropIfTotal_sublist _ _ _ _).trans
      ((dropIfTotal_sublist _ _ _ _).trans
        ((dropIfTotal_sublist _ _ _ _).trans
          ((dropIfTotal_sublist _ _ _ _).trans (List.filter_sublist rows))))
  · intro sel f rows
    exact isinFilter_sublist sel f rows
  · intro rows usel csel dsel
    unfold applyFilters
    exact ((isinFilter_sublist _ _ _).trans
      ((isinFilter_sublist _ _ _).trans (isinFilter_sublist _ _ _)))

theorem mem_dedupAux {x : String} :
    ∀ (l seen : List String),
      (x ∈ dedupAux seen l ↔ x ∈ l ∧ x ∉ seen) := by
  intro l
  induction l with
  | nil =>
    intro seen
    simp [dedupAux]
  | cons y t ih =>
    intro seen
    unfold dedupAux
    by_cases hy : seen.contains y
    · rw [if_pos hy, ih]
      have hymem : y ∈ seen := by simpa using hy
      constructor
      · rintro ⟨hxt, hxs⟩
        exact ⟨List.mem_cons_of_mem _ hxt, hxs⟩
      · rintro ⟨hxy, hxs⟩
        rcases List.mem_cons.mp hxy with rfl | hxt
        · exact absurd hymem hxs
        · exact ⟨hxt, hxs⟩
    · rw [if_neg hy]
      have hynot : y ∉ seen := by simpa using hy
      constructor
      · intro hmem
        rcases List.mem_cons.mp hmem with rfl | hmem2
        · exact ⟨List.mem_cons_self _ _, hynot⟩
        · obtain ⟨hxt, hxs⟩ := (ih (y :: seen)).mp hmem2
          have hxs2 : x ∉ seen := fun hc => hxs (List.mem_cons_of_mem _ hc)
          exact ⟨List.mem_cons_of_mem _ hxt, hxs2⟩
      · rintro ⟨hxy, hxs⟩
        by_cases hxy2 : x = y
        · subst hxy2
          exact List.mem_cons_self _ _
        · rcases List.mem_cons.mp hxy with rfl | hxt
          · exact absurd rfl hxy2
          · refine List.mem_cons_of_mem _ ((ih (y :: seen)).mpr ⟨hxt, ?_⟩)
            intro hc
            rcases List.mem_cons.mp hc with rfl | hc2
            · exact hxy2 rfl
            · exact hxs hc2

theorem mem_dedupFirst {x : String} {l : List String} :
    x ∈ dedupFirst l ↔ x ∈ l := by
  unfold dedupFirst
  rw [mem_dedupAux]
  simp

theorem mem_value_counts {vs : List String} {e : String × Nat} :
    e ∈ value_counts vs ↔ e.1 ∈ vs ∧ e.2 = vs.count e.1 := by
  unfold value_counts
  rw [(List.perm_insertionSort countDesc _).mem_iff, List.mem_map]
  constructor
  · rintro ⟨v, hv, rfl⟩
    exact ⟨mem_dedupFirst.mp hv, rfl⟩
  · rintro ⟨h1, h2⟩
    refine ⟨e.1, mem_dedupFirst.mpr h1, ?_⟩
    cases e
    simp only at h2
    simp [h2]

theorem value_counts_sorted (vs : List String) :
    List.Sorted countDesc (value_counts vs) :=
  List.sorted_insertionSort countDesc _

theorem filterMap_find_eq (vs : List String) (P : List String) :
    P.filterMap
        (fun p => ((value_counts vs).find? (fun e => e.1 == p)).map
          (fun e => (p, e.2))) =
      (P.filter (fun p => vs.contains p)).map (fun p => (p, vs.count p)) := by
  induction P with
  | nil => rfl
  | cons p P ih =>
    rw [List.filterMap_cons, List.filter_cons]
    by_cases hp : p ∈ vs
    · have hex : ((value_counts vs).find? (fun e => e.1 == p)).isSome := by
        rw [List.find?_isSome]
        exact ⟨(p, vs.count p), mem_value_counts.mpr ⟨hp, rfl⟩, by simp⟩
      obtain ⟨e, he⟩ := Option.isSome_iff_exists.mp hex
      have hmem := List.mem_of_find?_eq_some he
      have he1 : e.1 = p := by simpa using List.find?_some he
      have he2 : e.2 = vs.count e.1 := (mem_value_counts.mp hmem).2
      rw [he, Option.map_some', if_pos (by simpa using hp), List.map_cons, ih]
      rw [he2, he1]
    · have hfind : (value_counts vs).find? (fun e => e.1 == p) = none := by
        rw [List.find?_eq_none]
        intro e hemem
        have h1 := (mem_value_counts.mp hemem).1
        simp only [beq_iff_eq]
        intro h2
        exact hp (h2 ▸ h1)
      rw [hfind, Option.map_none', if_neg (by simpa using hp)]
      exact ih

/-- C8: the position-type grouping lists first exactly the hierarchy labels
occurring in the data, in the fixed `ORDEN_PUESTO` order with their
occurrence counts, and then appends every position-type value not in the
hierarchy, in descending order of its frequency count (each with its correct
count). -/
theorem puesto_count_hierarchy (rows : List (RowG (Option Rat))) :
    puesto_count rows =
      (ORDEN_PUESTO.filter
          (fun p => (rows.map
            (fun r => r.tipoPuesto.getD "Sin Tipo de Puesto")).contains p)).map
        (fun p => (p, (rows.map
          (fun r => r.tipoPuesto.getD "Sin Tipo de Puesto")).count p)) ++
      (value_counts (rows.map
          (fun r => r.tipoPuesto.getD "Sin Tipo de Puesto"))).filter
        (fun e => !ORDEN_PUESTO.contains e.1) ∧
    List.Sorted countDesc
      ((value_counts (rows.map
          (fun r => r.tipoPuesto.getD "Sin Tipo de Puesto"))).filter
        (fun e => !ORDEN_PUESTO.contains e.1)) ∧
    (∀ e ∈ (value_counts (rows.map
          (fun r => r.tipoPuesto.getD "Sin Tipo de Puesto"))).filter
        (fun e => !ORDEN_PUESTO.contains e.1),
      e.1 ∉ ORDEN_PUESTO ∧
        e.1 ∈ rows.map (fun r => r.tipoPuesto.getD "Sin Tipo de Puesto") ∧
        e.2 = (rows.map
          (fun r => r.tipoPuesto.getD "Sin Tipo de Puesto")).count e.1) := by
  refine ⟨?_, ?_, ?_⟩
  · simp only [puesto_count]
    rw [filterMap_find_eq]
  · exact (value_counts_sorted _).sublist (List.filter_sublist _)
  · intro e he
    have hmem := (List.filter_sublist _).subset he
    have hpred := List.of_mem_filter he
    obtain ⟨h1, h2⟩ := mem_value_counts.mp hmem
    refine ⟨by simpa using hpred, h1, h2⟩

/-- Witness for `puesto_count_hierarchy` on the spec's end-to-end example
(position-type counts Enlace 5, Gerente 3, UnknownRole 2): the hierarchy
member `Gerente` is listed before `Enlace`, and `UnknownRole` — not in the
hierarchy — is appended last with its frequency. -/
theorem puesto_count_witness :
    puesto_count
        (List.replicate 5 (RowG.mk none none none (some "Enlace") none none
            none (none : Option Rat)) ++
          List.replicate 3 (RowG.mk none none none (some "Gerente") none none
            none none) ++
          List.replicate 2 (RowG.mk none none none (some "UnknownRole") none
            none none none)) =
      [("Gerente", 3), ("Enlace", 5), ("UnknownRole", 2)] ∧
    "UnknownRole" ∉ ORDEN_PUESTO := by
  constructor
  · rw [(puesto_count_hierarchy _).1]
    rfl
  · exact ((puesto_count_hierarchy
      (List.replicate 5 (RowG.mk none none none (some "Enlace") none none
          none (none : Option Rat)) ++
        List.replicate 3 (RowG.mk none none none (some "Gerente") none none
          none none) ++
        List.replicate 2 (RowG.mk none none none (some "UnknownRole") none
          none none none))).2.2 ("UnknownRole", 2) (by decide)).1
